import Mathlib

/-!
A verification development for the `bob.extension` build-helper package
(`bob/extension/__init__.py` and `bob/extension/utils.py`).

The Python source is shallowly embedded: each Python function used by the
claims is translated into an executable Lean definition that mirrors the
source line by line (lists stay lists, dict insertion order is modelled by
association lists, exceptions become `Option`/`Except`, and the in-place
mutations that matter for the claims are made explicit state).
-/

namespace BobExt

/-! ## `utils.uniq` (utils.py lines 217-222)

`uniq` keeps the first occurrence of each element, preserving order; the
Python implementation threads a `seen` set through a comprehension. -/

def uniqAux {α : Type} [DecidableEq α] (seen : List α) : List α → List α
  | [] => []
  | x :: xs => if x ∈ seen then uniqAux seen xs else x :: uniqAux (x :: seen) xs

def uniq {α : Type} [DecidableEq α] (l : List α) : List α := uniqAux [] l

theorem mem_uniqAux {α : Type} [DecidableEq α] {seen : List α} {l : List α} {x : α}
    (h : x ∈ uniqAux seen l) : x ∈ l := by
  induction l generalizing seen with
  | nil => simp [uniqAux] at h
  | cons y ys ih =>
    by_cases hy : y ∈ seen
    · simp only [uniqAux, if_pos hy] at h
      exact List.mem_cons_of_mem _ (ih h)
    · simp only [uniqAux, if_neg hy, List.mem_cons] at h
      rcases h with h | h
      · exact h ▸ List.mem_cons_self _ _
      · exact List.mem_cons_of_mem _ (ih h)

theorem not_mem_uniqAux_of_seen {α : Type} [DecidableEq α] {seen : List α} {l : List α} {x : α}
    (hx : x ∈ seen) : x ∉ uniqAux seen l := by
  induction l generalizing seen with
  | nil => simp [uniqAux]
  | cons y ys ih =>
    by_cases hy : y ∈ seen
    · simpa [uniqAux, if_pos hy] using ih hx
    · simp only [uniqAux, if_neg hy, List.mem_cons]
      rintro (rfl | h)
      · exact hy hx
      · exact ih (List.mem_cons_of_mem _ hx) h

theorem nodup_uniqAux {α : Type} [DecidableEq α] (seen : List α) (l : List α) :
    (uniqAux seen l).Nodup := by
  induction l generalizing seen with
  | nil => simp [uniqAux]
  | cons y ys ih =>
    by_cases hy : y ∈ seen
    · simpa [uniqAux, if_pos hy] using ih seen
    · simp only [uniqAux, if_neg hy, List.nodup_cons]
      exact ⟨not_mem_uniqAux_of_seen (List.mem_cons_self _ _), ih _⟩

theorem nodup_uniq {α : Type} [DecidableEq α] (l : List α) : (uniq l).Nodup :=
  nodup_uniqAux [] l

theorem mem_uniq {α : Type} [DecidableEq α] {l : List α} {x : α} (h : x ∈ uniq l) : x ∈ l :=
  mem_uniqAux h

theorem uniqAux_eq_self {α : Type} [DecidableEq α] {seen : List α} {l : List α}
    (hnd : l.Nodup) (hdisj : ∀ x ∈ l, x ∉ seen) : uniqAux seen l = l := by
  induction l generalizing seen with
  | nil => rfl
  | cons y ys ih =>
    have hy : y ∉ seen := hdisj y (List.mem_cons_self _ _)
    simp only [uniqAux, if_neg hy]
    have hnd' := (List.nodup_cons.mp hnd).2
    have hymem := (List.nodup_cons.mp hnd).1
    congr 1
    refine ih hnd' ?_
    intro x hx
    simp only [List.mem_cons]
    rintro (rfl | hxs)
    · exact hymem hx
    · exact hdisj x (List.mem_cons_of_mem _ hx) hxs

theorem uniq_eq_self_of_nodup {α : Type} [DecidableEq α] {l : List α} (h : l.Nodup) :
    uniq l = l :=
  uniqAux_eq_self h (by intro x _ hx; simp at hx)

theorem uniq_idem {α : Type} [DecidableEq α] (l : List α) : uniq (uniq l) = uniq l :=
  uniq_eq_self_of_nodup (nodup_uniq l)

theorem uniq_nil_iff {α : Type} [DecidableEq α] (l : List α) : uniq l = [] ↔ l = [] := by
  constructor
  · intro h
    cases l with
    | nil => rfl
    | cons x xs => simp [uniq, uniqAux] at h
  · rintro rfl; rfl

theorem mem_of_mem_uniq_general {α : Type} [DecidableEq α] {seen l : List α} {x : α}
    (hx : x ∈ l) (hseen : x ∉ seen) : x ∈ uniqAux seen l := by
  induction l generalizing seen with
  | nil => cases hx
  | cons y ys ih =>
    by_cases hy : y ∈ seen
    · rcases List.mem_cons.mp hx with rfl | hxs
      · exact absurd hy hseen
      · simpa [uniqAux, if_pos hy] using ih hxs hseen
    · simp only [uniqAux, if_neg hy, List.mem_cons]
      rcases List.mem_cons.mp hx with rfl | hxs
      · exact Or.inl rfl
      · by_cases hxy : x = y
        · exact Or.inl hxy
        · refine Or.inr (ih hxs ?_)
          simp only [List.mem_cons]
          rintro (rfl | h)
          · exact hxy rfl
          · exact hseen h

theorem mem_uniq_iff {α : Type} [DecidableEq α] {l : List α} {x : α} :
    x ∈ uniq l ↔ x ∈ l :=
  ⟨mem_uniq, fun h => mem_of_mem_uniq_general h (by simp)⟩

/-- `uniq` characterised as the fold that appends each element not yet present:
this is the "deduplicate preserving the first occurrence" description. -/
theorem uniqAux_eq_foldl {α : Type} [DecidableEq α] (l : List α) :
    ∀ (acc seen : List α), (∀ x, x ∈ acc ↔ x ∈ seen) →
      l.foldl (fun a x => if x ∈ a then a else a ++ [x]) acc = acc ++ uniqAux seen l := by
  induction l with
  | nil => intro acc seen _; simp [uniqAux]
  | cons y ys ih =>
    intro acc seen hiff
    by_cases hy : y ∈ seen
    · have hya : y ∈ acc := (hiff y).mpr hy
      simp only [List.foldl_cons, if_pos hya, uniqAux, if_pos hy]
      exact ih acc seen hiff
    · have hya : y ∉ acc := fun h => hy ((hiff y).mp h)
      simp only [List.foldl_cons, if_neg hya, uniqAux, if_neg hy]
      rw [ih (acc ++ [y]) (y :: seen) ?_]
      · simp
      · intro x
        simp only [List.mem_append, List.mem_cons, List.not_mem_nil, or_false]
        constructor
        · rintro (h | rfl)
          · exact Or.inr ((hiff x).mp h)
          · exact Or.inl rfl
        · rintro (rfl | h)
          · exact Or.inr rfl
          · exact Or.inl ((hiff x).mpr h)

theorem uniq_eq_foldl {α : Type} [DecidableEq α] (l : List α) :
    uniq l = l.foldl (fun a x => if x ∈ a then a else a ++ [x]) [] := by
  rw [uniqAux_eq_foldl l [] [] (by simp)]; rfl

/-! ## Character-level splitting helpers

Python's `str.split(sep)` for a single-character separator
(used by `find_file` for `os.pathsep` and by `Library.__init__`
for `'.'`). -/

def splitOnCharAux (sep : Char) (acc : List Char) : List Char → List (List Char)
  | [] => [acc.reverse]
  | c :: rest =>
    if c = sep then acc.reverse :: splitOnCharAux sep [] rest
    else splitOnCharAux sep (c :: acc) rest

def splitOnChar (sep : Char) (s : String) : List String :=
  (splitOnCharAux sep [] s.toList).map String.mk

/-! ## `utils.find_file` search-prefix assembly (utils.py lines 14-18 and 50-65)

The probe builds its search list from the `BOB_PREFIX_PATH` environment
variable (split on the OS path separator, `:` on posix), then the
caller-supplied prefixes, then `DEFAULT_PREFIXES`, and deduplicates with
`uniq`.  The glob-expansion and existence filtering that follow (lines
68-79) are outside this claim's scope. -/

def DEFAULT_PREFIXES : List String := ["/usr", "/usr/local", "/opt/local"]

def envSplit (bob_prefix_path : Option String) : List String :=
  match bob_prefix_path with
  | some v => splitOnChar ':' v
  | none => []

def find_file_search (bob_prefix_path : Option String) (prefixes : List String) :
    List String :=
  uniq (envSplit bob_prefix_path ++ prefixes ++ DEFAULT_PREFIXES)

/-! ## `reorganize_isystem` (__init__.py lines 103-130)

The Python loop walks `args` with a skip flag: on `'-isystem'` it records
the next argument as an include path and skips it; every other argument
goes to `remainder`.  `args[i+1]` raises `IndexError` when `'-isystem'`
is the final argument, which the embedding models as `none`. -/

def scanArgs : List String → Option (List String × List String)
  | [] => some ([], [])
  | a :: rest =>
    if a = "-isystem" then
      match rest with
      | [] => none
      | b :: rest2 => (scanArgs rest2).map (fun p => (p.1, b :: p.2))
    else (scanArgs rest).map (fun p => (a :: p.1, p.2))

/-- The sort key `lambda item: (-len(item), item)`: descending length,
ties broken by ascending string order.  Python compares strings by code
point, which is the lexicographic order on the character list. -/
def pyKeyLe (a b : String) : Prop :=
  b.length < a.length ∨ (a.length = b.length ∧ a.toList ≤ b.toList)

instance : DecidableRel pyKeyLe := fun a b => by
  unfold pyKeyLe; infer_instance

instance : IsTotal String pyKeyLe where
  total a b := by
    rcases lt_trichotomy a.length b.length with h | h | h
    · exact Or.inr (Or.inl h)
    · rcases le_total a.toList b.toList with hab | hab
      · exact Or.inl (Or.inr ⟨h, hab⟩)
      · exact Or.inr (Or.inr ⟨h.symm, hab⟩)
    · exact Or.inl (Or.inl h)

instance : IsTrans String pyKeyLe where
  trans a b c hab hbc := by
    rcases hab with h1 | ⟨h1, h1'⟩
    · rcases hbc with h2 | ⟨h2, _⟩
      · exact Or.inl (h2.trans h1)
      · exact Or.inl (h2 ▸ h1)
    · rcases hbc with h2 | ⟨h2, h2'⟩
      · exact Or.inl (h1 ▸ h2)
      · exact Or.inr ⟨h1.trans h2, le_trans h1' h2'⟩

def reorganize_isystem (args : List String) : Option (List String) :=
  (scanArgs args).map (fun p =>
    let includes := (uniq p.2.reverse).reverse
    let includes2 := List.insertionSort pyKeyLe includes
    p.1 ++ includes2.flatMap (fun k => ["-isystem", k]))

/-! ## The requirement splitter

`check_packages` and `normalize_requirements` both split a requirement
string with `re.split(r'\s*(?P<cmp>[<>=]+)\s*', requirement)`.  The
embedding is a left-to-right scanner equivalent to that regex split for
this pattern: each match is the maximal whitespace run, followed by a
non-empty maximal run of comparator characters, followed by the maximal
whitespace run; the captured comparator run appears between the
surrounding tokens in the output. -/

def isCmpChar (c : Char) : Bool := c = '<' || c = '>' || c = '='

/-- ASCII whitespace as matched by Python's `\s`. -/
def isPySpace (c : Char) : Bool :=
  c = ' ' || c = '\t' || c = '\n' || c = '\r' || c = '\x0b' || c = '\x0c'

/-- Scanner state: building a name token (characters collected in reverse),
inside a comparator run, or skipping the whitespace that follows one. -/
inductive SplitMode : Type
  | tok (curr : List Char)
  | cmp (acc : List Char)
  | skip

def splitAux : SplitMode → List Char → List (List Char)
  | .tok curr, [] => [curr.reverse]
  | .cmp acc, [] => [acc.reverse, []]
  | .skip, [] => [[]]
  | .tok curr, c :: rest =>
    if isCmpChar c then (curr.dropWhile isPySpace).reverse :: splitAux (.cmp [c]) rest
    else splitAux (.tok (c :: curr)) rest
  | .cmp acc, c :: rest =>
    if isCmpChar c then splitAux (.cmp (c :: acc)) rest
    else if isPySpace c then acc.reverse :: splitAux .skip rest
    else acc.reverse :: splitAux (.tok [c]) rest
  | .skip, c :: rest =>
    if isPySpace c then splitAux .skip rest
    else if isCmpChar c then [] :: splitAux (.cmp [c]) rest
    else splitAux (.tok [c]) rest

/-- `re.split(r'\s*(?P<cmp>[<>=]+)\s*', r)` on the character list of `r`. -/
def splitReq (r : List Char) : List (List Char) := splitAux (.tok []) r

/-! ## `normalize_requirements` (__init__.py lines 132-169)

Requirements are parsed and grouped into a name-keyed mapping whose
insertion order is preserved (Python dict semantics), the constraint list
of each name is deduplicated with `uniq`, and the surviving entries are
re-joined with single spaces. -/

abbrev Tok := List Char
abbrev Constraint := Tok × Tok
abbrev ReqMap := List (Tok × List Constraint)

/-- One parsed requirement: its name token plus an optional
(comparator, version) pair; `none` when the token count is not 1 or 3
(the `RuntimeError("cannot parse requirement ...")` path). -/
def parseReq (r : Tok) : Option (Tok × Option Constraint) :=
  match splitReq r with
  | [k] => some (k, none)
  | [k, op, v] => some (k, some (op, v))
  | _ => none

/-- `parsed.setdefault(name, [])` followed, for a constrained requirement,
by `.append((op, version))`: the first occurrence of a name appends an
entry at the end of the mapping, later occurrences extend its list. -/
def addReq : ReqMap → Tok → Option Constraint → ReqMap
  | [], k, c => [(k, c.toList)]
  | (k', vs) :: rest, k, c =>
    if k' = k then (k', vs ++ c.toList) :: rest
    else (k', vs) :: addReq rest k c

def parseAllAux (m : ReqMap) : List Tok → Option ReqMap
  | [] => some m
  | r :: rest =>
    match parseReq r with
    | none => none
    | some (k, c) => parseAllAux (addReq m k c) rest

def parseAll (rs : List Tok) : Option ReqMap := parseAllAux [] rs

/-- The output loop: a name with no surviving constraints is emitted bare,
otherwise one `' '.join((name, op, version))` line per deduplicated
constraint. -/
def emitOne (k : Tok) (vs : List Constraint) : List Tok :=
  let vs' := uniq vs
  if vs' = [] then [k]
  else vs'.map (fun c => k ++ ' ' :: c.1 ++ ' ' :: c.2)

def emit (m : ReqMap) : List Tok := m.flatMap (fun kv => emitOne kv.1 kv.2)

def normalizeL (rs : List Tok) : Option (List Tok) := (parseAll rs).map emit

def normalize_requirements (rs : List String) : Option (List String) :=
  (normalizeL (rs.map String.toList)).map (fun ts => ts.map String.mk)

/-! ### Token shape invariants

Tokens produced by `splitReq` satisfy the following shape facts, which are
what makes `normalize_requirements` idempotent: a name token contains no
comparator character and (when produced by a 3-token split) no trailing
whitespace, a comparator token is a non-empty run of comparator
characters, and a version token contains no comparator character and no
leading whitespace. -/

def GoodTok (k : Tok) : Prop := ∀ c ∈ k, isCmpChar c = false

def NoTrail (k : Tok) : Prop := k.reverse.dropWhile isPySpace = k.reverse

def NoLead (v : Tok) : Prop := v.dropWhile isPySpace = v

def GoodC (c : Constraint) : Prop :=
  c.1 ≠ [] ∧ (∀ x ∈ c.1, isCmpChar x = true) ∧ GoodTok c.2 ∧ NoLead c.2

def GoodEntry (e : Tok × List Constraint) : Prop :=
  GoodTok e.1 ∧ (e.2 ≠ [] → NoTrail e.1) ∧ ∀ c ∈ e.2, GoodC c

def GoodMap (m : ReqMap) : Prop :=
  (m.map Prod.fst).Nodup ∧ ∀ e ∈ m, GoodEntry e

theorem dropWhile_idem {α : Type} (p : α → Bool) (l : List α) :
    (l.dropWhile p).dropWhile p = l.dropWhile p := by
  induction l with
  | nil => rfl
  | cons x xs ih =>
    by_cases h : p x
    · simp [List.dropWhile_cons, h, ih]
    · simp [List.dropWhile_cons, h]

theorem noLead_head {α : Type} {p : α → Bool} {c : α} {rest : List α}
    (h : (c :: rest).dropWhile p = c :: rest) : p c = false := by
  by_contra hc
  have hc' : p c = true := by revert hc; cases p c <;> simp
  rw [List.dropWhile_cons_of_pos hc'] at h
  have hle : (rest.dropWhile p).length ≤ rest.length := (List.dropWhile_sublist p).length_le
  have hlen := congrArg List.length h
  simp at hlen
  omega

theorem takeWhile_append_of_all {α : Type} (p : α → Bool) {l1 : List α} (l2 : List α)
    (h : ∀ x ∈ l1, p x = true) : (l1 ++ l2).takeWhile p = l1 ++ l2.takeWhile p := by
  induction l1 with
  | nil => rfl
  | cons x xs ih =>
    have hx := h x (List.mem_cons_self _ _)
    simp only [List.cons_append, List.takeWhile_cons_of_pos hx]
    rw [ih (fun y hy => h y (List.mem_cons_of_mem _ hy))]

theorem dropWhile_append_of_all {α : Type} (p : α → Bool) {l1 : List α} (l2 : List α)
    (h : ∀ x ∈ l1, p x = true) : (l1 ++ l2).dropWhile p = l2.dropWhile p := by
  induction l1 with
  | nil => rfl
  | cons x xs ih =>
    have hx := h x (List.mem_cons_self _ _)
    simp only [List.cons_append, List.dropWhile_cons_of_pos hx]
    exact ih (fun y hy => h y (List.mem_cons_of_mem _ hy))

/-! ### Forward splitting lemmas: re-splitting a well-shaped joined line -/

theorem splitAux_tok_all_nocmp (s : List Char) :
    ∀ (curr : List Char), (∀ c ∈ s, isCmpChar c = false) →
      splitAux (.tok curr) s = [curr.reverse ++ s] := by
  induction s with
  | nil => intro curr _; simp [splitAux]
  | cons c rest ih =>
    intro curr h
    have hc := h c (List.mem_cons_self _ _)
    simp only [splitAux, hc, Bool.false_eq_true, if_false]
    rw [ih (c :: curr) (fun y hy => h y (List.mem_cons_of_mem _ hy))]
    simp

theorem splitReq_of_goodTok {k : Tok} (hk : GoodTok k) : splitReq k = [k] := by
  have := splitAux_tok_all_nocmp k [] hk
  simpa [splitReq] using this

theorem splitAux_tok_run (k : List Char) :
    ∀ (curr t : List Char), (∀ c ∈ k, isCmpChar c = false) →
      splitAux (.tok curr) (k ++ t) = splitAux (.tok (k.reverse ++ curr)) t := by
  induction k with
  | nil => intro curr t _; rfl
  | cons c rest ih =>
    intro curr t h
    have hc := h c (List.mem_cons_self _ _)
    simp only [List.cons_append, splitAux, hc, Bool.false_eq_true, if_false]
    simp only [List.append_eq]
    rw [ih (c :: curr) t (fun y hy => h y (List.mem_cons_of_mem _ hy))]
    simp

theorem splitAux_cmp_run (op' : List Char) :
    ∀ (acc t : List Char), (∀ c ∈ op', isCmpChar c = true) →
      splitAux (.cmp acc) (op' ++ t) = splitAux (.cmp (op'.reverse ++ acc)) t := by
  induction op' with
  | nil => intro acc t _; rfl
  | cons c rest ih =>
    intro acc t h
    have hc := h c (List.mem_cons_self _ _)
    simp only [List.cons_append, splitAux, hc, if_true]
    simp only [List.append_eq]
    rw [ih (c :: acc) t (fun y hy => h y (List.mem_cons_of_mem _ hy))]
    simp

theorem splitAux_skip_single {v : Tok} (hv : GoodTok v) (hvl : NoLead v) :
    splitAux .skip v = [v] := by
  cases v with
  | nil => rfl
  | cons c rest =>
    have hc : isPySpace c = false := noLead_head hvl
    have hcmp : isCmpChar c = false := hv c (List.mem_cons_self _ _)
    simp only [splitAux, hc, Bool.false_eq_true, if_false, hcmp]
    have := splitAux_tok_all_nocmp rest [c]
      (fun y hy => hv y (List.mem_cons_of_mem _ hy))
    rw [this]
    simp

theorem splitReq_joined {k op v : Tok}
    (hk : GoodTok k) (hkt : NoTrail k)
    (hop : op ≠ []) (hopall : ∀ c ∈ op, isCmpChar c = true)
    (hv : GoodTok v) (hvl : NoLead v) :
    splitReq (k ++ ' ' :: op ++ ' ' :: v) = [k, op, v] := by
  unfold splitReq
  rw [show k ++ ' ' :: op ++ ' ' :: v = k ++ (' ' :: op ++ ' ' :: v) by
    simp [List.append_assoc]]
  rw [splitAux_tok_run k [] (' ' :: op ++ ' ' :: v) hk]
  cases op with
  | nil => exact absurd rfl hop
  | cons o op' =>
    have ho : isCmpChar o = true := hopall o (List.mem_cons_self _ _)
    have hsp : isPySpace ' ' = true := rfl
    have hspc : isCmpChar ' ' = false := rfl
    simp only [List.append_nil, List.cons_append, splitAux, hspc, Bool.false_eq_true,
      if_false, ho, if_true]
    have hdrop : List.dropWhile isPySpace (' ' :: k.reverse) = k.reverse := by
      rw [List.dropWhile_cons_of_pos hsp]
      exact hkt
    rw [hdrop]
    simp only [List.append_eq]
    rw [splitAux_cmp_run op' [o] (' ' :: v)
      (fun y hy => hopall y (List.mem_cons_of_mem _ hy))]
    simp only [splitAux, hspc, Bool.false_eq_true, if_false, hsp, if_true]
    rw [splitAux_skip_single hv hvl]
    simp

/-! ### Inversion lemmas: shapes of the tokens `splitReq` produces -/

theorem splitAux_length_pos (s : List Char) :
    ∀ (m : SplitMode), 1 ≤ (splitAux m s).length := by
  induction s with
  | nil => intro m; cases m <;> simp [splitAux]
  | cons c rest ih =>
    intro m
    cases m with
    | tok curr =>
      by_cases hc : isCmpChar c
      · simp [splitAux, hc]
      · simpa [splitAux, hc] using ih (.tok (c :: curr))
    | cmp acc =>
      by_cases hc : isCmpChar c
      · simpa [splitAux, hc] using ih (.cmp (c :: acc))
      · by_cases hs : isPySpace c <;> simp [splitAux, hc, hs]
    | skip =>
      by_cases hs : isPySpace c
      · simpa [splitAux, hs] using ih .skip
      · by_cases hc : isCmpChar c
        · simp [splitAux, hs, hc]
        · simpa [splitAux, hs, hc] using ih (.tok [c])

theorem splitAux_cmp_length (s : List Char) :
    ∀ (acc : List Char), 2 ≤ (splitAux (.cmp acc) s).length := by
  induction s with
  | nil => intro acc; simp [splitAux]
  | cons c rest ih =>
    intro acc
    by_cases hc : isCmpChar c
    · simpa [splitAux, hc] using ih (c :: acc)
    · by_cases hs : isPySpace c
      · have := splitAux_length_pos rest .skip
        simp [splitAux, hc, hs]
        omega
      · have := splitAux_length_pos rest (.tok [c])
        simp [splitAux, hc, hs]
        omega

theorem splitAux_tok_single (s : List Char) :
    ∀ (curr : List Char) (k : Tok), splitAux (.tok curr) s = [k] →
      k = curr.reverse ++ s ∧ ∀ c ∈ s, isCmpChar c = false := by
  induction s with
  | nil =>
    intro curr k h
    simp [splitAux] at h
    simp [h]
  | cons c rest ih =>
    intro curr k h
    by_cases hc : isCmpChar c
    · simp only [splitAux, hc, if_true, List.cons.injEq] at h
      have htail := h.2
      have hlen := splitAux_cmp_length rest [c]
      rw [htail] at hlen
      simp at hlen
    · simp only [splitAux, hc, Bool.false_eq_true, if_false] at h
      obtain ⟨hk, hall⟩ := ih (c :: curr) k h
      refine ⟨by simpa using hk, ?_⟩
      intro y hy
      rcases List.mem_cons.mp hy with rfl | hy'
      · simpa using hc
      · exact hall y hy'

theorem splitAux_skip_single_inv (s : List Char) :
    ∀ (v : Tok), splitAux .skip s = [v] → GoodTok v ∧ NoLead v := by
  induction s with
  | nil =>
    intro v h
    simp [splitAux] at h
    subst h
    exact ⟨fun c hc => absurd hc (List.not_mem_nil c), rfl⟩
  | cons c rest ih =>
    intro v h
    by_cases hs : isPySpace c
    · simp only [splitAux, hs, if_true] at h
      exact ih v h
    · by_cases hc : isCmpChar c
      · simp only [splitAux, hs, Bool.false_eq_true, if_false, hc, if_true,
          List.cons.injEq] at h
        have htail := h.2
        have hlen := splitAux_cmp_length rest [c]
        rw [htail] at hlen
        simp at hlen
      · simp only [splitAux, hs, Bool.false_eq_true, if_false, hc] at h
        obtain ⟨hv, hall⟩ := splitAux_tok_single rest [c] v h
        subst hv
        constructor
        · intro y hy
          rcases List.mem_cons.mp (by simpa using hy) with rfl | hy'
          · simpa using hc
          · exact hall y hy'
        · show List.dropWhile isPySpace ([c].reverse ++ rest) = [c].reverse ++ rest
          simp only [List.reverse_singleton, List.singleton_append]
          rw [List.dropWhile_cons_of_neg (by simpa using hs)]

theorem splitAux_cmp_pair (s : List Char) :
    ∀ (acc : List Char) (op v : Tok), acc ≠ [] → (∀ c ∈ acc, isCmpChar c = true) →
      splitAux (.cmp acc) s = [op, v] →
      (op ≠ [] ∧ ∀ c ∈ op, isCmpChar c = true) ∧ GoodTok v ∧ NoLead v := by
  induction s with
  | nil =>
    intro acc op v hacc hall h
    simp only [splitAux, List.cons.injEq, and_true] at h
    obtain ⟨hop, hv⟩ := h
    subst hop; subst hv
    refine ⟨⟨by simpa using hacc, ?_⟩, fun c hc => absurd hc (List.not_mem_nil c), rfl⟩
    intro c hc
    exact hall c (List.mem_reverse.mp hc)
  | cons c rest ih =>
    intro acc op v hacc hall h
    by_cases hc : isCmpChar c
    · simp only [splitAux, hc, if_true] at h
      exact ih (c :: acc) op v (by simp) (by
        intro y hy
        rcases List.mem_cons.mp hy with rfl | hy'
        · exact hc
        · exact hall y hy') h
    · by_cases hs : isPySpace c
      · simp only [splitAux, hc, Bool.false_eq_true, if_false, hs, if_true,
          List.cons.injEq] at h
        obtain ⟨hop, hrest⟩ := h
        have hskip := splitAux_skip_single_inv rest v hrest
        refine ⟨⟨?_, ?_⟩, hskip⟩
        · subst hop; simpa using hacc
        · subst hop
          intro y hy
          exact hall y (List.mem_reverse.mp hy)
      · simp only [splitAux, hc, Bool.false_eq_true, if_false, hs, List.cons.injEq] at h
        obtain ⟨hop, hrest⟩ := h
        obtain ⟨hv, hallv⟩ := splitAux_tok_single rest [c] v hrest
        subst hv
        refine ⟨⟨?_, ?_⟩, ?_, ?_⟩
        · subst hop; simpa using hacc
        · subst hop
          intro y hy
          exact hall y (List.mem_reverse.mp hy)
        · intro y hy
          rcases List.mem_cons.mp (by simpa using hy) with rfl | hy'
          · simpa using hc
          · exact hallv y hy'
        · show List.dropWhile isPySpace ([c].reverse ++ rest) = [c].reverse ++ rest
          simp only [List.reverse_singleton, List.singleton_append]
          rw [List.dropWhile_cons_of_neg (by simpa using hs)]

theorem splitAux_tok_triple (s : List Char) :
    ∀ (curr : List Char) (k op v : Tok), (∀ c ∈ curr, isCmpChar c = false) →
      splitAux (.tok curr) s = [k, op, v] →
      GoodTok k ∧ NoTrail k ∧ (op ≠ [] ∧ ∀ c ∈ op, isCmpChar c = true) ∧
        GoodTok v ∧ NoLead v := by
  induction s with
  | nil =>
    intro curr k op v _ h
    simp [splitAux] at h
  | cons c rest ih =>
    intro curr k op v hcurr h
    by_cases hc : isCmpChar c
    · simp only [splitAux, hc, if_true, List.cons.injEq] at h
      obtain ⟨hk, hrest⟩ := h
      have hpair := splitAux_cmp_pair rest [c] op v (by simp)
        (by intro y hy; rcases List.mem_cons.mp hy with rfl | hy'
            · exact hc
            · cases hy') hrest
      refine ⟨?_, ?_, hpair.1, hpair.2⟩
      · subst hk
        intro y hy
        have hy2 : y ∈ curr.dropWhile isPySpace := List.mem_reverse.mp hy
        exact hcurr y ((List.dropWhile_sublist isPySpace).mem hy2)
      · subst hk
        show (List.reverse _).reverse.dropWhile isPySpace = (List.reverse _).reverse
        rw [List.reverse_reverse]
        exact dropWhile_idem isPySpace curr
    · simp only [splitAux, hc, Bool.false_eq_true, if_false] at h
      exact ih (c :: curr) k op v (by
        intro y hy
        rcases List.mem_cons.mp hy with rfl | hy'
        · simpa using hc
        · exact hcurr y hy') h

/-! ### `parseReq` shape facts -/

theorem parseReq_none_inv {r : Tok} {k : Tok} (h : parseReq r = some (k, none)) :
    k = r ∧ GoodTok k := by
  unfold parseReq at h
  cases hs : splitReq r with
  | nil => rw [hs] at h; cases h
  | cons t1 ts =>
    cases ts with
    | nil =>
      rw [hs] at h
      simp only [Option.some.injEq, Prod.mk.injEq] at h
      obtain ⟨hk1, -⟩ := h
      obtain ⟨ht, hall⟩ := splitAux_tok_single r [] t1 hs
      have hkr : k = r := by rw [← hk1, ht]; simp
      subst hkr
      exact ⟨rfl, fun c hc => hall c hc⟩
    | cons t2 ts2 =>
      cases ts2 with
      | nil => rw [hs] at h; cases h
      | cons t3 ts3 =>
        cases ts3 with
        | nil => rw [hs] at h; simp at h
        | cons t4 ts4 => rw [hs] at h; cases h

theorem parseReq_some_inv {r : Tok} {k : Tok} {c : Constraint}
    (h : parseReq r = some (k, some c)) :
    GoodTok k ∧ NoTrail k ∧ GoodC c := by
  unfold parseReq at h
  cases hs : splitReq r with
  | nil => rw [hs] at h; cases h
  | cons t1 ts =>
    cases ts with
    | nil => rw [hs] at h; simp at h
    | cons t2 ts2 =>
      cases ts2 with
      | nil => rw [hs] at h; cases h
      | cons t3 ts3 =>
        cases ts3 with
        | nil =>
          rw [hs] at h
          simp at h
          obtain ⟨hk, hc⟩ := h
          obtain ⟨h1, h2, h3, h4, h5⟩ := splitAux_tok_triple r [] t1 t2 t3
            (by intro y hy; cases hy) hs
          subst hk; subst hc
          exact ⟨h1, h2, h3.1, h3.2, h4, h5⟩
        | cons t4 ts4 => rw [hs] at h; cases h

theorem parseReq_bare {k : Tok} (hk : GoodTok k) : parseReq k = some (k, none) := by
  unfold parseReq
  rw [splitReq_of_goodTok hk]

theorem parseReq_joined {k : Tok} {c : Constraint}
    (hk : GoodTok k) (hkt : NoTrail k) (hc : GoodC c) :
    parseReq (k ++ ' ' :: c.1 ++ ' ' :: c.2) = some (k, some c) := by
  unfold parseReq
  rw [splitReq_joined hk hkt hc.1 hc.2.1 hc.2.2.1 hc.2.2.2]

/-! ### The grouped mapping: `addReq`/`parseAllAux` invariants -/

theorem addReq_new {m : ReqMap} {k : Tok} (c : Option Constraint)
    (hk : k ∉ m.map Prod.fst) : addReq m k c = m ++ [(k, c.toList)] := by
  induction m with
  | nil => rfl
  | cons e rest ih =>
    have hne : e.1 ≠ k := by
      intro he
      exact hk (by simp [← he])
    cases e with
    | mk k' vs =>
      simp only [addReq, if_neg hne]
      rw [ih (by intro hmem; exact hk (List.mem_cons_of_mem _ hmem))]
      simp

theorem addReq_last {m : ReqMap} {k : Tok} {vs : List Constraint} (c : Option Constraint)
    (hk : k ∉ m.map Prod.fst) :
    addReq (m ++ [(k, vs)]) k c = m ++ [(k, vs ++ c.toList)] := by
  induction m with
  | nil => simp [addReq]
  | cons e rest ih =>
    have hne : e.1 ≠ k := by
      intro he
      exact hk (by simp [← he])
    cases e with
    | mk k' vs' =>
      simp only [List.cons_append, addReq, if_neg hne]
      simp only [List.append_eq]
      rw [ih (by intro hmem; exact hk (List.mem_cons_of_mem _ hmem))]

theorem addReq_keys (m : ReqMap) (k : Tok) (c : Option Constraint) :
    (addReq m k c).map Prod.fst =
      if k ∈ m.map Prod.fst then m.map Prod.fst else m.map Prod.fst ++ [k] := by
  induction m with
  | nil => simp [addReq]
  | cons e rest ih =>
    cases e with
    | mk k' vs =>
      by_cases hke : k' = k
      · subst hke
        simp [addReq]
      · simp only [addReq, if_neg hke, List.map_cons]
        rw [ih]
        by_cases hmem : k ∈ rest.map Prod.fst
        · simp [hmem, hke, Ne.symm hke]
        · have : ¬ (k = k' ∨ k ∈ rest.map Prod.fst) := by
            rintro (rfl | hm)
            · exact hke rfl
            · exact hmem hm
          simp only [if_pos hmem, if_neg hmem]
          simp [hmem, Ne.symm hke]

/-! ### GoodMap preservation -/

theorem addReq_goodEntries {m : ReqMap} {k : Tok} {c : Option Constraint}
    (hm : ∀ e ∈ m, GoodEntry e)
    (hk : GoodTok k)
    (hc : ∀ c', c = some c' → NoTrail k ∧ GoodC c') :
    ∀ e ∈ addReq m k c, GoodEntry e := by
  induction m with
  | nil =>
    intro e he
    simp only [addReq, List.mem_singleton] at he
    subst he
    refine ⟨hk, ?_, ?_⟩
    · intro hne
      cases c with
      | none => simp at hne
      | some c' => exact (hc c' rfl).1
    · intro c' hc'
      cases c with
      | none => cases hc'
      | some c'' =>
        simp only [Option.toList_some, List.mem_singleton] at hc'
        subst hc'
        exact (hc c' rfl).2
  | cons e0 rest ih =>
    intro e he
    cases e0 with
    | mk k' vs =>
      by_cases hke : k' = k
      · subst hke
        rw [show addReq ((k', vs) :: rest) k' c = (k', vs ++ c.toList) :: rest from by
          unfold addReq; rw [if_pos rfl], List.mem_cons] at he
        rcases he with rfl | he'
        · have h0 := hm (k', vs) (List.mem_cons_self _ _)
          refine ⟨h0.1, ?_, ?_⟩
          · intro hne
            cases c with
            | none =>
              have hvs : vs ≠ [] := by
                intro hv
                rw [hv] at hne
                exact hne rfl
              exact h0.2.1 hvs
            | some c' => exact (hc c' rfl).1
          · intro c' hc'
            rcases List.mem_append.mp hc' with hin | hin
            · exact h0.2.2 c' hin
            · cases c with
              | none => cases hin
              | some c'' =>
                simp only [Option.toList_some, List.mem_singleton] at hin
                subst hin
                exact (hc c' rfl).2
        · exact hm e (List.mem_cons_of_mem _ he')
      · simp only [addReq, if_neg hke, List.mem_cons] at he
        rcases he with rfl | he'
        · exact hm (k', vs) (List.mem_cons_self _ _)
        · exact ih (fun e' he' => hm e' (List.mem_cons_of_mem _ he')) e he'

theorem addReq_goodMap {m : ReqMap} {k : Tok} {c : Option Constraint}
    (hm : GoodMap m) (hk : GoodTok k)
    (hc : ∀ c', c = some c' → NoTrail k ∧ GoodC c') :
    GoodMap (addReq m k c) := by
  constructor
  · rw [addReq_keys]
    by_cases hmem : k ∈ m.map Prod.fst
    · simpa [hmem] using hm.1
    · simp only [if_neg hmem]
      rw [List.nodup_append]
      exact ⟨hm.1, List.nodup_singleton k, by simpa using hmem⟩
  · exact addReq_goodEntries hm.2 hk hc

theorem parseAllAux_goodMap (rs : List Tok) :
    ∀ (m m' : ReqMap), parseAllAux m rs = some m' → GoodMap m → GoodMap m' := by
  induction rs with
  | nil =>
    intro m m' h hm
    simp only [parseAllAux, Option.some.injEq] at h
    exact h ▸ hm
  | cons r rest ih =>
    intro m m' h hm
    unfold parseAllAux at h
    cases hp : parseReq r with
    | none => rw [hp] at h; cases h
    | some kc =>
      rw [hp] at h
      cases kc with
      | mk k c =>
        refine ih _ _ h ?_
        cases c with
        | none =>
          obtain ⟨-, hk⟩ := parseReq_none_inv hp
          exact addReq_goodMap hm hk (fun c' hc' => by cases hc')
        | some c' =>
          obtain ⟨hk, hkt, hgc⟩ := parseReq_some_inv hp
          refine addReq_goodMap hm hk ?_
          intro c'' hc''
          cases hc''
          exact ⟨hkt, hgc⟩

/-! ### Re-parsing the emitted lines reproduces the mapping -/

theorem parseAllAux_append {m m1 : ReqMap} {rs1 : List Tok}
    (h : parseAllAux m rs1 = some m1) (rs2 : List Tok) :
    parseAllAux m (rs1 ++ rs2) = parseAllAux m1 rs2 := by
  induction rs1 generalizing m with
  | nil =>
    simp only [parseAllAux, Option.some.injEq] at h
    subst h
    rfl
  | cons r rest ih =>
    unfold parseAllAux at h
    cases hp : parseReq r with
    | none => rw [hp] at h; cases h
    | some kc =>
      rw [hp] at h
      cases kc with
      | mk k c =>
        rw [show (r :: rest) ++ rs2 = r :: (rest ++ rs2) from rfl]
        rw [show parseAllAux m (r :: (rest ++ rs2)) =
            (match parseReq r with
             | none => none
             | some (k, c) => parseAllAux (addReq m k c) (rest ++ rs2)) from rfl]
        rw [hp]
        exact ih h

theorem parseAllAux_constraints {k : Tok} (hk : GoodTok k) (hkt : NoTrail k)
    (cs : List Constraint) :
    ∀ (m0 : ReqMap) (acc : List Constraint), (∀ c ∈ cs, GoodC c) →
      k ∉ m0.map Prod.fst →
      parseAllAux (m0 ++ [(k, acc)]) (cs.map (fun c => k ++ ' ' :: c.1 ++ ' ' :: c.2)) =
        some (m0 ++ [(k, acc ++ cs)]) := by
  induction cs with
  | nil =>
    intro m0 acc _ _
    simp [parseAllAux]
  | cons c cs' ih =>
    intro m0 acc hall hm0
    have hgc : GoodC c := hall c (List.mem_cons_self _ _)
    simp only [List.map_cons, parseAllAux, parseReq_joined hk hkt hgc]
    rw [addReq_last (some c) hm0]
    have := ih m0 (acc ++ [c]) (fun y hy => hall y (List.mem_cons_of_mem _ hy)) hm0
    simp only [Option.toList_some]
    rw [this]
    simp

theorem parseAllAux_block {k : Tok} {vs : List Constraint} {m0 : ReqMap}
    (hE : GoodEntry (k, vs)) (hk0 : k ∉ m0.map Prod.fst) :
    parseAllAux m0 (emitOne k vs) = some (m0 ++ [(k, uniq vs)]) := by
  by_cases hvs : uniq vs = []
  · have hnil : vs = [] := (uniq_nil_iff vs).mp hvs
    subst hnil
    unfold emitOne
    simp only [if_pos hvs]
    simp only [parseAllAux, parseReq_bare hE.1]
    rw [addReq_new none hk0]
    simp [hvs]
  · have hvs' : vs ≠ [] := by
      intro hv
      subst hv
      exact hvs rfl
    have hkt : NoTrail k := hE.2.1 hvs'
    unfold emitOne
    simp only [if_neg hvs]
    cases hu : uniq vs with
    | nil => exact absurd hu hvs
    | cons c cs =>
      have hgc : ∀ y ∈ uniq vs, GoodC y := fun y hy => hE.2.2 y (mem_uniq hy)
      rw [hu] at hgc
      simp only [List.map_cons, parseAllAux, parseReq_joined hE.1 hkt
        (hgc c (List.mem_cons_self _ _))]
      rw [addReq_new (some c) hk0]
      simp only [Option.toList_some]
      have := parseAllAux_constraints hE.1 hkt cs m0 [c]
        (fun y hy => hgc y (List.mem_cons_of_mem _ hy)) hk0
      rw [this]
      simp

theorem parseAllAux_emit (m : ReqMap) :
    ∀ (m0 : ReqMap), (∀ e ∈ m, GoodEntry e) →
      (m0.map Prod.fst ++ m.map Prod.fst).Nodup →
      parseAllAux m0 (emit m) = some (m0 ++ m.map (fun e => (e.1, uniq e.2))) := by
  induction m with
  | nil =>
    intro m0 _ _
    simp [emit, parseAllAux]
  | cons e m' ih =>
    intro m0 hgood hnd
    cases e with
    | mk k vs =>
      have hk0 : k ∉ m0.map Prod.fst := by
        intro hmem
        rw [List.nodup_append] at hnd
        exact hnd.2.2 hmem (by simp)
      have hblock := parseAllAux_block (hgood (k, vs) (List.mem_cons_self _ _)) hk0
      have hstep : emit ((k, vs) :: m') = emitOne k vs ++ emit m' := by
        simp [emit]
      rw [hstep, parseAllAux_append hblock (emit m')]
      have hnd' : ((m0 ++ [(k, uniq vs)]).map Prod.fst ++ m'.map Prod.fst).Nodup := by
        simp only [List.map_append, List.map_cons, List.map_nil]
        have : m0.map Prod.fst ++ [k] ++ m'.map Prod.fst =
            m0.map Prod.fst ++ k :: m'.map Prod.fst := by
          simp
        rw [this]
        simpa using hnd
      have := ih (m0 ++ [(k, uniq vs)])
        (fun y hy => hgood y (List.mem_cons_of_mem _ hy)) hnd'
      rw [this]
      simp

theorem emitOne_uniq (k : Tok) (vs : List Constraint) :
    emitOne k (uniq vs) = emitOne k vs := by
  unfold emitOne
  rw [uniq_idem]

theorem emit_map_uniq (m : ReqMap) :
    emit (m.map (fun e => (e.1, uniq e.2))) = emit m := by
  induction m with
  | nil => rfl
  | cons e m' ih =>
    cases e with
    | mk k vs =>
      simp only [emit, List.map_cons, List.flatMap_cons] at ih ⊢
      rw [ih, emitOne_uniq]

/-- Idempotence at the token level: a successful first pass normalizes,
and running the pass again on its own output returns it unchanged. -/
theorem normalizeL_idem {rs L : List Tok} (h : normalizeL rs = some L) :
    normalizeL L = some L := by
  unfold normalizeL at h
  cases hp : parseAll rs with
  | none => rw [hp] at h; cases h
  | some m =>
    rw [hp] at h
    simp only [Option.map_some', Option.some.injEq] at h
    have hgood : GoodMap m := parseAllAux_goodMap rs [] m hp
      ⟨List.nodup_nil, fun e he => absurd he (List.not_mem_nil e)⟩
    have hparse : parseAll (emit m) = some (m.map (fun e => (e.1, uniq e.2))) := by
      unfold parseAll
      have := parseAllAux_emit m [] hgood.2 (by simpa using hgood.1)
      simpa using this
    subst h
    unfold normalizeL
    rw [hparse]
    simp only [Option.map_some', Option.some.injEq]
    exact emit_map_uniq m

/-! ## Loose version comparison

Modelled from the spec: the Package Query Adapter (the `pkgconfig` module,
whose source is not part of this snapshot) "implements ordering comparators
(`<,<=,>,>=,==`) between its resolved version and an arbitrary version
string using a loose, dot-segment-wise comparison (numeric segments compare
numerically; non-numeric segments compare lexically)"; the `check_packages`
docstring names `distutils.version.LooseVersion` as that comparator, so the
component grammar below follows LooseVersion: maximal runs of digits become
numbers, maximal runs of lowercase letters or of other characters become
strings, `'.'` characters are dropped, and component lists compare like
Python lists (a numeric/string mismatch is a comparison error). -/

inductive VPart : Type
  | num (n : Nat)
  | alpha (s : List Char)
deriving DecidableEq

inductive LClass : Type
  | dig
  | low
  | oth
deriving DecidableEq

def charClass (c : Char) : Option LClass :=
  if c.isDigit then some .dig
  else if 'a' ≤ c && c ≤ 'z' then some .low
  else if c = '.' then none
  else some .oth

def natOfDigits (l : List Char) : Nat :=
  l.foldl (fun n c => n * 10 + (c.toNat - 48)) 0

def flushPart : Option (LClass × List Char) → List VPart
  | none => []
  | some (.dig, acc) => [.num (natOfDigits acc.reverse)]
  | some (.low, acc) => [.alpha acc.reverse]
  | some (.oth, acc) => [.alpha acc.reverse]

def looseAux (cur : Option (LClass × List Char)) : List Char → List VPart
  | [] => flushPart cur
  | c :: rest =>
    match charClass c with
    | none => flushPart cur ++ looseAux none rest
    | some cl =>
      match cur with
      | none => looseAux (some (cl, [c])) rest
      | some (cl', acc) =>
        if cl' = cl then looseAux (some (cl, c :: acc)) rest
        else flushPart (some (cl', acc)) ++ looseAux (some (cl, [c])) rest

def looseParse (s : List Char) : List VPart := looseAux none s

def charListCmp : List Char → List Char → Ordering
  | [], [] => .eq
  | [], _ :: _ => .lt
  | _ :: _, [] => .gt
  | a :: as', b :: bs =>
    if a < b then .lt
    else if b < a then .gt
    else charListCmp as' bs

def vpartCmp : VPart → VPart → Option Ordering
  | .num a, .num b => some (compare a b)
  | .alpha a, .alpha b => some (charListCmp a b)
  | _, _ => none

def vlistCmp : List VPart → List VPart → Option Ordering
  | [], [] => some .eq
  | [], _ :: _ => some .lt
  | _ :: _, [] => some .gt
  | a :: as', b :: bs =>
    match vpartCmp a b with
    | none => none
    | some .eq => vlistCmp as' bs
    | some o => some o

def looseCompare (a b : List Char) : Option Ordering :=
  vlistCmp (looseParse a) (looseParse b)

/-! ## `check_packages` (__init__.py lines 25-79)

The adapter query `pkgconfig(name)` is abstracted as a `resolve` function
returning the resolved package's name and version (`none` models the
`PackageNotFound` failure).  Everything else follows the source loop:
the input list first passes through `uniq`, each entry is split, a token
count other than 1 or 3 and an unknown comparator raise `RuntimeError`,
the comparator assertion is checked (the `'=='` branch tests `p <=
version`, exactly as line 69 of the source does), and a name that was
already requested raises the recurring-requirement `RuntimeError` after
the package has been appended. -/

structure PkgInfo : Type where
  name : String
  version : String
deriving DecidableEq

inductive CheckError : Type
  | malformed (r : String)
  | packageNotFound (n : String)
  | unsatisfied (name : String) (op : String) (v : String)
  | cmpTypeError
  | duplicate (n : String)
deriving DecidableEq

/-- One comparator assertion from lines 60-71.  Faithful to the source:
the `'=='` case asserts `p <= version` (line 69). -/
def assertCmp (p : PkgInfo) (op v : Tok) : Except CheckError Unit :=
  let cmp := looseCompare p.version.toList v
  let need (ok : Ordering → Bool) : Except CheckError Unit :=
    match cmp with
    | none => .error .cmpTypeError
    | some o => if ok o then .ok () else .error (.unsatisfied p.name (String.mk op) (String.mk v))
  if op = ['>'] then need (fun o => o = .gt)
  else if op = ['>', '='] then need (fun o => o = .gt || o = .eq)
  else if op = ['<'] then need (fun o => o = .lt)
  else if op = ['<', '='] then need (fun o => o = .lt || o = .eq)
  else if op = ['=', '='] then need (fun o => o = .lt || o = .eq)
  else .error (.malformed (String.mk op))

def checkOne (resolve : String → Option PkgInfo) (r : String) : Except CheckError PkgInfo :=
  match parseReq r.toList with
  | none => .error (.malformed r)
  | some (k, c) =>
    match resolve (String.mk k) with
    | none => .error (.packageNotFound (String.mk k))
    | some p =>
      match c with
      | none => .ok p
      | some (op, v) =>
        match assertCmp p op v with
        | .error e => .error e
        | .ok _ => .ok p

def check_packagesAux (resolve : String → Option PkgInfo) (used : List String) :
    List String → Except CheckError (List PkgInfo)
  | [] => .ok []
  | r :: rest =>
    match checkOne resolve r with
    | .error e => .error e
    | .ok p =>
      if p.name ∈ used then .error (.duplicate p.name)
      else
        match check_packagesAux resolve (p.name :: used) rest with
        | .error e => .error e
        | .ok ps => .ok (p :: ps)

def check_packages (resolve : String → Option PkgInfo) (packages : List String) :
    Except CheckError (List PkgInfo) :=
  check_packagesAux resolve [] (uniq packages)

/-! ## `generate_self_macros` (__init__.py lines 81-101)

`version is None` returns an empty list immediately; otherwise the
qualified name is split with `rsplit('.', 1)` (an `IndexError` when it
has no dot, modelled as an error), the prefix/name/entry macros are
emitted, and the version macro is appended only when the version string
is truthy (non-empty).  The entry-point symbol depends on the running
Python's major version. -/

def rsplit1Dot (s : List Char) : List (List Char) :=
  let r := s.reverse
  let post := r.takeWhile (fun c => c ≠ '.')
  match r.dropWhile (fun c => c ≠ '.') with
  | [] => [s]
  | _ :: pre => [pre.reverse, post.reverse]

def generate_self_macros (extname : String) (version : Option String) (pyMajor : Nat) :
    Except String (List (String × String)) :=
  match version with
  | none => .ok []
  | some v =>
    match rsplit1Dot extname.toList with
    | [pre, post] =>
      let s0 := String.mk pre
      let s1 := String.mk post
      .ok ([("BOB_EXT_MODULE_PREFIX", "\"" ++ s0 ++ "\""),
            ("BOB_EXT_MODULE_NAME", "\"" ++ s1 ++ "\""),
            ("BOB_EXT_ENTRY_NAME",
              if pyMajor ≥ 3 then "PyInit_" ++ s1 else "init" ++ s1)] ++
           (if v ≠ "" then [("BOB_EXT_MODULE_VERSION", "\"" ++ v ++ "\"")] else []))
    | _ => .error "IndexError: list index out of range"

/-! ## Boost requirement extraction (__init__.py lines 260-276)

The source iterates `enumerate(packages)` and deletes matched entries
from the list it is iterating (`del packages[i]`).  A CPython list
iterator fetches by a monotonically increasing internal index, so after a
deletion at index `i` the element that slid into slot `i` is never
examined.  The loop is modelled with an explicit index and a fuel bounded
by the number of iterations the Python loop can make. -/

def extractBoostLoop : Nat → String → Nat → List String → String × List String
  | 0, req, _, pkgs => (req, pkgs)
  | fuel + 1, req, idx, pkgs =>
    match pkgs.get? idx with
    | none => (req, pkgs)
    | some pkg =>
      if "boost".toList.isPrefixOf pkg.toList then
        extractBoostLoop fuel pkg (idx + 1) (pkgs.eraseIdx idx)
      else extractBoostLoop fuel req (idx + 1) pkgs

def extractBoost (pkgs : List String) : String × List String :=
  extractBoostLoop (pkgs.length + 1) "" 0 pkgs

/-- The scan `extractBoost` actually performs, written as plain recursion:
after a removed boost entry the immediately following entry is skipped
(kept unexamined), which is the `del`-under-iteration behaviour. -/
def ebSpec (req : String) : List String → String × List String
  | [] => (req, [])
  | p :: rest =>
    if "boost".toList.isPrefixOf p.toList then
      match rest with
      | [] => (p, [])
      | q :: rest2 =>
        let r := ebSpec p rest2
        (r.1, q :: r.2)
    else
      let r := ebSpec req rest
      (r.1, p :: r.2)

/-- Line 276: `if boost_modules and not boost_req: boost_req = 'boost >= 1.0'`. -/
def finalBoostReq (packages : List String) (boost_modules : List String) : String :=
  let req := (extractBoost packages).1
  if boost_modules ≠ [] ∧ req = "" then "boost >= 1.0" else req

/-! ## Sibling-package library decoration (__init__.py lines 341-357)

Inside the per-package loop of `Extension.__init__`: a resolved package
whose name begins with `bob-` has each of its library names decorated
with the resolved version (`name.version` on Darwin,
`:libname.so.version` on Linux, `RuntimeError` elsewhere); other
packages keep their libraries as-is on every platform. -/

def decorateLibraries (system : String) (pkgName pkgVersion : String)
    (libs : List String) : Except String (List String) :=
  if "bob-".toList.isPrefixOf pkgName.toList then
    if system = "Darwin" then .ok (libs.map (fun k => k ++ "." ++ pkgVersion))
    else if system = "Linux" then .ok (libs.map (fun k => ":lib" ++ k ++ ".so." ++ pkgVersion))
    else .error "supports only MacOSX and Linux builds"
  else .ok libs

/-! ## `Library.__init__` name handling and `build_ext.run` (__init__.py
lines 462-467 and 540-581)

`Library` computes `c_name` as the last component of the dotted name and
`c_target_directory` as the package directory joined with the leading
components; a name without a dot raises `ValueError`.  `build_ext.run`
first walks all targets collecting every `Library`'s name, target
directory, and `include` subdirectory in declaration order, then keeps
only the non-`Library` extensions and prepends the accumulated values to
each one's own lists. -/

structure PyExtensionSpec : Type where
  name : String
  libraries : List String
  library_dirs : List String
  include_dirs : List String
deriving DecidableEq

inductive BuildTarget : Type
  | library (c_name : String) (c_target_directory : String)
  | extension (e : PyExtensionSpec)
deriving DecidableEq

def joinWith (sep : String) : List String → String
  | [] => ""
  | [x] => x
  | x :: y :: rest => x ++ sep ++ joinWith sep (y :: rest)

/-- `Library.__init__` lines 462-467 reduced to the fields the orchestrator
reads: `name.split('.')` must have at least two parts, `c_name` is the last
part, `c_target_directory` joins the package directory with the rest. -/
def mkLibraryTarget (packageDir qualifiedName : String) : Option BuildTarget :=
  let parts := splitOnChar '.' qualifiedName
  if parts.length ≤ 1 then none
  else
    match parts.getLast? with
    | none => none
    | some last =>
      some (.library last (packageDir ++ "/" ++ joinWith "/" parts.dropLast))

def accumulateLibs : List BuildTarget → List String × List String × List String
  | [] => ([], [], [])
  | .library n d :: rest =>
    let acc := accumulateLibs rest
    (n :: acc.1, d :: acc.2.1, (d ++ "/include") :: acc.2.2)
  | .extension _ :: rest => accumulateLibs rest

def extTargets (targets : List BuildTarget) : List PyExtensionSpec :=
  targets.filterMap (fun t =>
    match t with
    | .extension e => some e
    | .library _ _ => none)

def run_build_ext (targets : List BuildTarget) : List PyExtensionSpec :=
  let acc := accumulateLibs targets
  (extTargets targets).map (fun e =>
    { e with
      libraries := acc.1 ++ e.libraries
      library_dirs := acc.2.1 ++ e.library_dirs
      include_dirs := acc.2.2 ++ e.include_dirs })

/-! ## Caller-visible mutations of `Extension.__init__` (lines 375-378)

`kwargs.setdefault('include_dirs', []).append(self_include_dir)` returns
the caller's own list object when one was supplied, and `.append` mutates
it in place; the rebinding of `kwargs['include_dirs']` on line 378 builds
a fresh list but does not undo that append.  The constructor performs no
filesystem writes (its only filesystem interaction is the read-only
`resource_filename` lookup), recorded by the empty write trace. -/

structure InitEffects : Type where
  callerIncludeDirs : Option (List String)
  filesystemWrites : List String
deriving DecidableEq

def extensionInitEffects (suppliedIncludeDirs : Option (List String))
    (selfIncludeDir : String) : InitEffects :=
  { callerIncludeDirs :=
      match suppliedIncludeDirs with
      | none => none
      | some l => some (l ++ [selfIncludeDir])
    filesystemWrites := [] }

/-! ## Helper lemmas for the boost-extraction loop -/

theorem get?_append_cons {α : Type} (done : List α) (p : α) (rest : List α) :
    (done ++ p :: rest).get? done.length = some p := by
  induction done with
  | nil => rfl
  | cons d ds ih => simpa using ih

theorem eraseIdx_append_cons {α : Type} (done : List α) (p : α) (rest : List α) :
    (done ++ p :: rest).eraseIdx done.length = done ++ rest := by
  induction done with
  | nil => rfl
  | cons d ds ih => simpa [List.eraseIdx] using ih

theorem extractBoostLoop_stop (fuel : Nat) (req : String) (idx : Nat) (pkgs : List String)
    (h : pkgs.length ≤ idx) : extractBoostLoop fuel req idx pkgs = (req, pkgs) := by
  cases fuel with
  | zero => rfl
  | succ f =>
    unfold extractBoostLoop
    rw [List.get?_eq_none.mpr h]

theorem extractBoostLoop_eq_ebSpec (fuel : Nat) :
    ∀ (rest done : List String) (req : String), rest.length + 1 ≤ fuel →
      extractBoostLoop fuel req done.length (done ++ rest) =
        ((ebSpec req rest).1, done ++ (ebSpec req rest).2) := by
  induction fuel with
  | zero =>
    intro rest done req h
    exact absurd h (by omega)
  | succ f ih =>
    intro rest done req h
    cases rest with
    | nil =>
      rw [extractBoostLoop_stop _ _ _ _ (by simp)]
      simp [ebSpec]
    | cons p rest' =>
      unfold extractBoostLoop
      rw [get?_append_cons]
      dsimp only
      by_cases hb : "boost".toList.isPrefixOf p.toList
      · rw [if_pos hb, eraseIdx_append_cons]
        cases rest' with
        | nil =>
          rw [extractBoostLoop_stop _ _ _ _ (by simp)]
          conv_rhs => rw [ebSpec.eq_def]
          dsimp only
          rw [if_pos hb]
        | cons q rest'' =>
          have hlen : (done ++ [q]).length = done.length + 1 := by simp
          have heq : done ++ q :: rest'' = (done ++ [q]) ++ rest'' := by simp
          rw [heq, ← hlen, ih rest'' (done ++ [q]) p (by simp at h; omega)]
          conv_rhs => rw [ebSpec.eq_def]
          dsimp only
          rw [if_pos hb]
          simp
      · rw [if_neg hb]
        have hlen : (done ++ [p]).length = done.length + 1 := by simp
        have heq : done ++ p :: rest' = (done ++ [p]) ++ rest' := by simp
        rw [heq, ← hlen, ih rest' (done ++ [p]) req (by simp at h; omega)]
        conv_rhs => rw [ebSpec.eq_def]
        dsimp only
        rw [if_neg hb]
        simp

theorem extractBoost_eq_ebSpec (pkgs : List String) :
    extractBoost pkgs = ebSpec "" pkgs := by
  have h := extractBoostLoop_eq_ebSpec (pkgs.length + 1) pkgs [] "" (by omega)
  simpa [extractBoost] using h

/-! ## Concrete adapter fixtures used by the theorems below -/

/-- An adapter that resolves `pkg` at version `1.0` and nothing else. -/
def resolveOnePkg : String → Option PkgInfo :=
  fun n => if n = "pkg" then some ⟨"pkg", "1.0"⟩ else none

/-- An adapter that resolves `pkga` at version `3.0` and nothing else. -/
def resolvePkga : String → Option PkgInfo :=
  fun n => if n = "pkga" then some ⟨"pkga", "3.0"⟩ else none

/-! # Theorems -/

/-- **C1.** The claim reads line 68-69 as an equality test: a requirement
`"name == version"` should succeed exactly when the resolved version equals
the requested one and otherwise fail with the unsatisfied-requirement
error.  The code instead asserts `p <= splitreq[2]` in the `'=='` branch
(while its own failure message says "version is not =="), so a package
resolved at version `1.0` passes the requirement `"pkg == 2.0"`: the call
succeeds even though the versions differ, and the loose comparison
confirms they are not equal. -/
theorem c1_equality_comparator_accepts_smaller_version :
    check_packages resolveOnePkg ["pkg == 2.0"] = .ok [⟨"pkg", "1.0"⟩] ∧
    looseCompare "1.0".toList "2.0".toList = some .lt := by
  exact ⟨rfl, rfl⟩

/-- **C2** (counterexample).  The claim says two requirement entries naming
the same package raise the duplicate-requirement error even with identical
version constraints; but `check_packages` first passes its input through
`uniq` (line 48), so two *identical* entries collapse to one and the call
succeeds. -/
theorem c2_identical_duplicate_requirements_accepted :
    check_packages resolvePkga ["pkga > 1.0", "pkga > 1.0"] = .ok [⟨"pkga", "3.0"⟩] := by
  rfl

/-- **C2** (amended).  Whenever two *distinct* requirement strings resolve
to the same package name (and each passes its own version assertion), the
call fails with the recurring-requirement error. -/
theorem c2_distinct_same_name_requirements_raise
    (resolve : String → Option PkgInfo) (r1 r2 : String) (p1 p2 : PkgInfo)
    (hne : r1 ≠ r2)
    (h1 : checkOne resolve r1 = .ok p1)
    (h2 : checkOne resolve r2 = .ok p2)
    (hname : p1.name = p2.name) :
    check_packages resolve [r1, r2] = .error (.duplicate p2.name) := by
  have huniq : uniq [r1, r2] = [r1, r2] := by
    simp [uniq, uniqAux, hne.symm]
  unfold check_packages
  rw [huniq]
  unfold check_packagesAux
  rw [h1]
  simp only [List.not_mem_nil, if_false]
  unfold check_packagesAux
  rw [h2]
  simp [hname]

/-- **C2** (witness): resolving `["pkgA > 1.0", "pkgA > 2.0"]` in one pass
hits the duplicate error even though the version constraints differ. -/
theorem c2_distinct_same_name_requirements_raise_witness :
    check_packages resolvePkga ["pkga > 1.0", "pkga > 2.0"] = .error (.duplicate "pkga") := by
  exact c2_distinct_same_name_requirements_raise resolvePkga
    "pkga > 1.0" "pkga > 2.0" ⟨"pkga", "3.0"⟩ ⟨"pkga", "3.0"⟩
    (by decide) rfl rfl rfl

/-- **C4** (counterexample).  The claim says the self-identifying macro
list of every target includes the module-prefix and module-name macros.
But `generate_self_macros` returns the empty list whenever no version was
supplied (`version is None`, line 84-85), so for the target `bob.core`
with no version nothing at all is injected. -/
theorem c4_no_version_no_macros :
    generate_self_macros "bob.core" none 3 = .ok [] ∧
    ¬ (∃ val macs, generate_self_macros "bob.core" none 3 = .ok macs ∧
        ("BOB_EXT_MODULE_PREFIX", val) ∈ macs) := by
  refine ⟨rfl, ?_⟩
  rintro ⟨val, macs, hm, hmem⟩
  have : macs = ([] : List (String × String)) := by
    have : (Except.ok [] : Except String (List (String × String))) = .ok macs := hm ▸ rfl
    exact (Except.ok.injEq _ _).mp this.symm ▸ rfl
  subst this
  cases hmem

/-- **C4** (amended).  When a version string is supplied the macro list
contains exactly the module prefix and module name obtained by splitting
the qualified name at its last `'.'`, the Python-major-version-conditional
entry-point macro, and the version macro exactly when the version string
is non-empty; when no version is supplied the list is empty. -/
theorem c4_self_macros_characterization
    (pre post : List Char) (v : String) (pyMajor : Nat)
    (hpost : ∀ c ∈ post, c ≠ '.') :
    generate_self_macros (String.mk (pre ++ '.' :: post)) (some v) pyMajor =
      .ok ([("BOB_EXT_MODULE_PREFIX", "\"" ++ String.mk pre ++ "\""),
            ("BOB_EXT_MODULE_NAME", "\"" ++ String.mk post ++ "\""),
            ("BOB_EXT_ENTRY_NAME",
              if pyMajor ≥ 3 then "PyInit_" ++ String.mk post
              else "init" ++ String.mk post)] ++
           (if v ≠ "" then [("BOB_EXT_MODULE_VERSION", "\"" ++ v ++ "\"")] else [])) ∧
    generate_self_macros (String.mk (pre ++ '.' :: post)) none pyMajor = .ok [] := by
  constructor
  · have hsplit : rsplit1Dot (String.mk (pre ++ '.' :: post)).toList = [pre, post] := by
      show rsplit1Dot (pre ++ '.' :: post) = [pre, post]
      simp only [rsplit1Dot]
      have hrev : (pre ++ '.' :: post).reverse = post.reverse ++ '.' :: pre.reverse := by
        simp
      rw [hrev]
      have htake : (post.reverse ++ '.' :: pre.reverse).takeWhile (fun c => c ≠ '.') =
          post.reverse := by
        rw [List.takeWhile_append]
        have hall : post.reverse.takeWhile (fun c => decide (c ≠ '.')) = post.reverse := by
          rw [List.takeWhile_eq_self_iff]
          intro c hc
          simpa using hpost c (List.mem_reverse.mp hc)
        simp only [hall]
        simp [List.takeWhile_cons]
      have hdrop : (post.reverse ++ '.' :: pre.reverse).dropWhile (fun c => c ≠ '.') =
          '.' :: pre.reverse := by
        rw [List.dropWhile_append]
        have hall : post.reverse.dropWhile (fun c => decide (c ≠ '.')) = [] := by
          rw [List.dropWhile_eq_nil_iff]
          intro c hc
          simpa using hpost c (List.mem_reverse.mp hc)
        simp only [hall]
        simp [List.dropWhile_cons]
      rw [htake, hdrop]
      simp
    unfold generate_self_macros
    rw [hsplit]
  · rfl

/-- **C4** (amended, witness): the target `bob.core` with version `1.2`
under Python 3. -/
theorem c4_self_macros_characterization_witness :
    generate_self_macros "bob.core" (some "1.2") 3 =
      .ok [("BOB_EXT_MODULE_PREFIX", "\"bob\""),
           ("BOB_EXT_MODULE_NAME", "\"core\""),
           ("BOB_EXT_ENTRY_NAME", "PyInit_core"),
           ("BOB_EXT_MODULE_VERSION", "\"1.2\"")] := by
  have h := c4_self_macros_characterization ['b', 'o', 'b'] ['c', 'o', 'r', 'e'] "1.2" 3
    (by decide)
  exact h.1

/-- **C7.** The filesystem probe assembles its search prefixes in strict
priority order (environment variable split on the path separator, then
caller prefixes, then the platform defaults) and deduplicates keeping
first occurrences: the assembled list is exactly the first-occurrence
fold of the priority concatenation, and for `BOB_PREFIX_PATH=/a:/b` with
explicit prefix `/c` the order is as the spec displays it. -/
theorem c7_search_prefix_priority_order :
    find_file_search (some "/a:/b") ["/c"] =
      ["/a", "/b", "/c", "/usr", "/usr/local", "/opt/local"] ∧
    ∀ (env : Option String) (prefixes : List String),
      find_file_search env prefixes =
        (envSplit env ++ prefixes ++ DEFAULT_PREFIXES).foldl
          (fun acc x => if x ∈ acc then acc else acc ++ [x]) [] ∧
      (find_file_search env prefixes).Nodup := by
  refine ⟨by decide, ?_⟩
  intro env prefixes
  exact ⟨(uniq_eq_foldl _), nodup_uniq _⟩

/-- **C8.** A resolved package whose name starts with `bob-` has each
library name decorated with the package version: `name.version` on
Darwin, `:libname.so.version` on Linux, and the unsupported-platform
error on every other platform; a package outside the `bob-` family keeps
its libraries untouched on all platforms. -/
theorem c8_sibling_library_decoration
    (system pkgName pkgVersion : String) (libs : List String) :
    ("bob-".toList.isPrefixOf pkgName.toList = true →
      (system = "Darwin" →
        decorateLibraries system pkgName pkgVersion libs =
          .ok (libs.map (fun k => k ++ "." ++ pkgVersion))) ∧
      (system = "Linux" →
        decorateLibraries system pkgName pkgVersion libs =
          .ok (libs.map (fun k => ":lib" ++ k ++ ".so." ++ pkgVersion))) ∧
      (system ≠ "Darwin" → system ≠ "Linux" →
        decorateLibraries system pkgName pkgVersion libs =
          .error "supports only MacOSX and Linux builds")) ∧
    ("bob-".toList.isPrefixOf pkgName.toList = false →
      decorateLibraries system pkgName pkgVersion libs = .ok libs) := by
  constructor
  · intro hbob
    refine ⟨?_, ?_, ?_⟩
    · rintro rfl; unfold decorateLibraries; rw [hbob]; simp
    · rintro rfl; unfold decorateLibraries; rw [hbob]; simp
    · intro hd hl; unfold decorateLibraries; rw [hbob]; simp [hd, hl]
  · intro hbob
    unfold decorateLibraries; rw [hbob]; simp

/-- **C8** (witness): the package `bob-io` at version `2.0` with library
`bob_io` on Darwin, Linux and Windows, and the non-sibling `opencv` on
Windows. -/
theorem c8_sibling_library_decoration_witness :
    decorateLibraries "Darwin" "bob-io" "2.0" ["bob_io"] = .ok ["bob_io.2.0"] ∧
    decorateLibraries "Linux" "bob-io" "2.0" ["bob_io"] = .ok [":libbob_io.so.2.0"] ∧
    decorateLibraries "Windows" "bob-io" "2.0" ["bob_io"] =
      .error "supports only MacOSX and Linux builds" ∧
    decorateLibraries "Windows" "opencv" "2.0" ["opencv_core"] = .ok ["opencv_core"] := by
  refine ⟨?_, ?_, ?_, ?_⟩
  · exact ((c8_sibling_library_decoration "Darwin" "bob-io" "2.0" ["bob_io"]).1
      (by decide)).1 rfl
  · exact ((c8_sibling_library_decoration "Linux" "bob-io" "2.0" ["bob_io"]).1
      (by decide)).2.1 rfl
  · exact ((c8_sibling_library_decoration "Windows" "bob-io" "2.0" ["bob_io"]).1
      (by decide)).2.2 (by decide) (by decide)
  · exact (c8_sibling_library_decoration "Windows" "opencv" "2.0" ["opencv_core"]).2
      (by decide)

/-- **C10** (counterexample).  The claim says every caller-supplied input
list is left unmodified by the flag-assembly step; but
`kwargs.setdefault('include_dirs', []).append(self_include_dir)` (line
377) appends to the very list object the caller passed, so a caller that
supplied `['/my/inc']` finds its list changed after the call. -/
theorem c10_caller_include_dirs_mutated :
    (extensionInitEffects (some ["/my/inc"]) "/site/bob/extension/include").callerIncludeDirs ≠
      some ["/my/inc"] := by
  decide

/-- **C10** (amended).  The flag-assembly step performs no filesystem
writes, but it does mutate a caller-supplied include-directory list in
place: after the call the caller's list holds its original entries
followed by the package's own include directory (a caller that passed no
list has no object to observe). -/
theorem c10_init_effects_characterization
    (l : List String) (d : String) :
    (extensionInitEffects (some l) d).callerIncludeDirs = some (l ++ [d]) ∧
    (extensionInitEffects (some l) d).filesystemWrites = [] ∧
    (extensionInitEffects none d).callerIncludeDirs = none := by
  exact ⟨rfl, rfl, rfl⟩

/-- **C3.** `reorganize_isystem` keeps every non-`-isystem` argument at
the front in its original order and re-appends one `('-isystem', path)`
pair per distinct path: the paths are deduplicated keeping the last
occurrence's position (reverse, first-occurrence dedup, reverse back),
then sorted by descending length with ties broken lexically ascending.
For the spec's three system includes the longest path comes first and
`/usr/include` last. -/
theorem c3_reorganize_isystem :
    reorganize_isystem ["-isystem", "/usr/include", "-isystem", "/usr/local/include",
        "-isystem", "/opt/foo/include/special"] =
      some ["-isystem", "/opt/foo/include/special", "-isystem", "/usr/local/include",
        "-isystem", "/usr/include"] ∧
    ∀ (args rem inc : List String), scanArgs args = some (rem, inc) →
      reorganize_isystem args =
        some (rem ++ (List.insertionSort pyKeyLe ((uniq inc.reverse).reverse)).flatMap
          (fun k => ["-isystem", k])) ∧
      (List.insertionSort pyKeyLe ((uniq inc.reverse).reverse)).Sorted pyKeyLe ∧
      (List.insertionSort pyKeyLe ((uniq inc.reverse).reverse)).Nodup ∧
      (∀ x, x ∈ List.insertionSort pyKeyLe ((uniq inc.reverse).reverse) ↔ x ∈ inc) := by
  refine ⟨by decide, ?_⟩
  intro args rem inc h
  refine ⟨by simp [reorganize_isystem, h], ?_, ?_, ?_⟩
  · exact List.sorted_insertionSort pyKeyLe _
  · exact ((List.perm_insertionSort pyKeyLe _).nodup_iff).mpr
      (List.nodup_reverse.mpr (nodup_uniq _))
  · intro x
    rw [(List.perm_insertionSort pyKeyLe _).mem_iff, List.mem_reverse, mem_uniq_iff,
      List.mem_reverse]

/-- **C3** (witness): the general part applied to the spec's example
argument list. -/
theorem c3_reorganize_isystem_witness :
    reorganize_isystem ["-isystem", "/usr/include", "-isystem", "/usr/local/include",
        "-isystem", "/opt/foo/include/special"] =
      some ([] ++ (List.insertionSort pyKeyLe
        ((uniq ["/usr/include", "/usr/local/include", "/opt/foo/include/special"].reverse).reverse)).flatMap
          (fun k => ["-isystem", k])) :=
  (c3_reorganize_isystem.2
    ["-isystem", "/usr/include", "-isystem", "/usr/local/include",
      "-isystem", "/opt/foo/include/special"]
    [] ["/usr/include", "/usr/local/include", "/opt/foo/include/special"] (by rfl)).1

/-- **C5** (counterexample).  The claim says every entry starting with
`boost` is removed from the remaining package list; but the loop deletes
entries from the list it is iterating, so of two adjacent boost entries
the second survives: `["boost > 1.0", "boost > 2.0"]` leaves
`"boost > 2.0"` (itself a boost entry) in the remaining list. -/
theorem c5_adjacent_boost_entry_survives :
    extractBoost ["boost > 1.0", "boost > 2.0"] = ("boost > 1.0", ["boost > 2.0"]) ∧
    "boost".toList.isPrefixOf ("boost > 2.0").toList = true := by
  exact ⟨rfl, rfl⟩

/-- **C5** (amended).  The boost extraction is a single forward scan that,
after removing a matched entry, never examines the element that slides
into its place (so of two adjacent boost entries only the first is
removed, and the last *examined* boost entry becomes the requirement);
and when boost modules are requested while the scan matched no boost
entry, the permissive `boost >= 1.0` is synthesized. -/
theorem c5_boost_extraction_characterization :
    (∀ pkgs, extractBoost pkgs = ebSpec "" pkgs) ∧
    (∀ pkgs mods, mods ≠ [] → (extractBoost pkgs).1 = "" →
      finalBoostReq pkgs mods = "boost >= 1.0") ∧
    (∀ pkgs mods, (extractBoost pkgs).1 ≠ "" →
      finalBoostReq pkgs mods = (extractBoost pkgs).1) := by
  refine ⟨extractBoost_eq_ebSpec, ?_, ?_⟩
  · intro pkgs mods hm hr
    simp [finalBoostReq, hm, hr]
  · intro pkgs mods hr
    simp [finalBoostReq, hr]

/-- **C5** (amended, witness): a lone non-boost package with requested
boost modules synthesizes `boost >= 1.0`; a matched lone boost entry is
extracted and kept as the requirement. -/
theorem c5_boost_extraction_characterization_witness :
    finalBoostReq ["opencv"] ["system"] = "boost >= 1.0" ∧
    finalBoostReq ["x", "boost", "y"] [] = "boost" ∧
    extractBoost ["x", "boost", "y"] = ebSpec "" ["x", "boost", "y"] := by
  refine ⟨?_, ?_, c5_boost_extraction_characterization.1 ["x", "boost", "y"]⟩
  · exact c5_boost_extraction_characterization.2.1 ["opencv"] ["system"]
      (by decide) (by rfl)
  · exact c5_boost_extraction_characterization.2.2 ["x", "boost", "y"] []
      (by decide)

/-- **C9.** The two-phase orchestrator accumulates every library target's
generated name, target directory, and `include` subdirectory in
declaration order, and every surviving extension target gets those
accumulated lists prepended ahead of its own declared values; with one
library `bob.core.bob_core` and one extension declaring no libraries,
the extension's resolved library list starts with the generated name
`bob_core`. -/
theorem c9_two_phase_ordering :
    (∀ targets : List BuildTarget,
      (accumulateLibs targets).1 = targets.filterMap (fun t =>
        match t with
        | .library n _ => some n
        | .extension _ => none) ∧
      (accumulateLibs targets).2.1 = targets.filterMap (fun t =>
        match t with
        | .library _ d => some d
        | .extension _ => none) ∧
      (accumulateLibs targets).2.2 = targets.filterMap (fun t =>
        match t with
        | .library _ d => some (d ++ "/include")
        | .extension _ => none)) ∧
    (∀ (targets : List BuildTarget) (e : PyExtensionSpec), .extension e ∈ targets →
      { e with
        libraries := (accumulateLibs targets).1 ++ e.libraries
        library_dirs := (accumulateLibs targets).2.1 ++ e.library_dirs
        include_dirs := (accumulateLibs targets).2.2 ++ e.include_dirs } ∈
          run_build_ext targets) ∧
    (mkLibraryTarget "/pkg" "bob.core.bob_core" =
      some (.library "bob_core" "/pkg/bob/core") ∧
     ∀ e', e' ∈ run_build_ext [.library "bob_core" "/pkg/bob/core",
        .extension ⟨"bob.core._ext", [], [], []⟩] →
          e'.libraries.head? = some "bob_core") := by
  refine ⟨?_, ?_, by decide, ?_⟩
  · intro targets
    induction targets with
    | nil => exact ⟨rfl, rfl, rfl⟩
    | cons t rest ih =>
      cases t with
      | library n d =>
        simp only [accumulateLibs, List.filterMap_cons]
        exact ⟨by rw [ih.1], by rw [ih.2.1], by rw [ih.2.2]⟩
      | extension e =>
        simp only [accumulateLibs, List.filterMap_cons]
        exact ⟨ih.1, ih.2.1, ih.2.2⟩
  · intro targets e he
    unfold run_build_ext
    refine List.mem_map.mpr ⟨e, ?_, rfl⟩
    unfold extTargets
    exact List.mem_filterMap.mpr ⟨.extension e, he, rfl⟩
  · intro e' he'
    have : e' = ⟨"bob.core._ext", ["bob_core"], ["/pkg/bob/core"],
        ["/pkg/bob/core/include"]⟩ := by
      simpa [run_build_ext, extTargets, accumulateLibs] using he'
    rw [this]
    rfl

/-- **C9** (witness): the membership part applied to the concrete
one-library-one-extension collection. -/
theorem c9_two_phase_ordering_witness :
    ({ name := "bob.core._ext"
       libraries := ["bob_core"]
       library_dirs := ["/pkg/bob/core"]
       include_dirs := ["/pkg/bob/core/include"] } : PyExtensionSpec) ∈
      run_build_ext [.library "bob_core" "/pkg/bob/core",
        .extension ⟨"bob.core._ext", [], [], []⟩] := by
  have h := c9_two_phase_ordering.2.1
    [.library "bob_core" "/pkg/bob/core", .extension ⟨"bob.core._ext", [], [], []⟩]
    ⟨"bob.core._ext", [], [], []⟩ (by simp)
  simpa [accumulateLibs] using h

/-- **C6.** `normalize_requirements` is idempotent: whenever normalizing a
requirement-string sequence succeeds (every entry splits into 1 or 3
tokens), normalizing the output again succeeds and returns it
unchanged. -/
theorem c6_normalize_requirements_idempotent {rs L : List String}
    (h : normalize_requirements rs = some L) :
    normalize_requirements L = some L := by
  unfold normalize_requirements at h
  cases hn : normalizeL (rs.map String.toList) with
  | none => rw [hn] at h; cases h
  | some M =>
    rw [hn] at h
    simp only [Option.map_some', Option.some.injEq] at h
    have hL : L.map String.toList = M := by
      rw [← h, List.map_map]
      have : ∀ t ∈ M, (String.toList ∘ String.mk) t = id t := by
        intro t _
        rfl
      rw [List.map_congr_left this, List.map_id]
    unfold normalize_requirements
    rw [hL, normalizeL_idem hn]
    simp [← h]

/-- **C6** (witness): a first pass merges a duplicated constraint, and the
second pass returns its output unchanged. -/
theorem c6_normalize_requirements_idempotent_witness :
    normalize_requirements ["pkga > 1.0", "pkgb", "pkga > 1.0", "pkga < 2.0"] =
      some ["pkga > 1.0", "pkga < 2.0", "pkgb"] ∧
    normalize_requirements ["pkga > 1.0", "pkga < 2.0", "pkgb"] =
      some ["pkga > 1.0", "pkga < 2.0", "pkgb"] := by
  refine ⟨by rfl, ?_⟩
  exact @c6_normalize_requirements_idempotent
    ["pkga > 1.0", "pkgb", "pkga > 1.0", "pkga < 2.0"]
    ["pkga > 1.0", "pkga < 2.0", "pkgb"] (by rfl)

end BobExt
